import Mathlib

/-!
Shallow embedding of the target graph and execution engine of the
`pescuma/go-build` repository (package `build`): the target registry
(`target.go`), the dependency-order resolver `ComputeTargetRunOrder` /
`dfs`, the executor `Builder.RunTarget` (`run.go`) and the default
target-grid synthesis `Builder.createDefaultTargets` (`builder.go`).

Conventions of the embedding:
* The Go map `map[string]*Target` is modelled as an association list
  (`List (String × Target)`); insertion prepends, lookup takes the first
  match, which is observationally the same as a map with distinct keys.
* The mutable `visited` map of `dfs` is modelled as a total function
  `String → Nat` defaulting to 0, exactly mirroring
  `v, ok := visited[name]; if !ok { v = 0 }`.
* The recursive `dfs` is given explicit fuel; `ComputeTargetRunOrder`
  runs it with fuel `items.length + 1`, which is proved sufficient
  (the out-of-fuel branch is proved unreachable), so the fueled function
  computes exactly what the Go recursion computes.
* `errors.Errorf` values are modelled by the inductive `ResolveErr`,
  whose constructors carry the data that the two message sites format:
  `cycle` for "cycle identified in targets graph" and
  `unknownTarget name` for "unknown target: <name>".
* A Go `panic` (duplicate registration) is modelled as `Except.error`;
  a nil-pointer dereference in the executor loop is modelled as `none`.
* A target action (`TargetRunFunc`, a fallible closure) is modelled by
  the value it returns when invoked: `Except String Unit`.
-/

namespace Build

/-- Model of the two `errors.Errorf` sites of `Targets.dfs` in `target.go`:
`cycle` stands for the message "cycle identified in targets graph" and
`unknownTarget name` for "unknown target: <name>". -/
inductive ResolveErr where
  | cycle : ResolveErr
  | unknownTarget (name : String) : ResolveErr
deriving DecidableEq, Repr

/-- Model of `type TargetRunFunc func() error`: an action is represented by
the result it produces when invoked (`.ok ()` for nil error, `.error msg`
for a non-nil error). -/
abbrev TargetRunFunc : Type := Except String Unit

deriving instance DecidableEq for Except

/-- Model of `type Target struct { Name string; Dependencies []string; run TargetRunFunc }`
from `target.go`. `run = none` models a nil `run` field (pure aggregator). -/
structure Target where
  Name : String
  Dependencies : List String
  run : Option TargetRunFunc
deriving DecidableEq, Repr

/-- Model of `type Targets struct { items map[string]*Target }`. -/
structure Targets where
  items : List (String × Target)
deriving DecidableEq, Repr

/-- Model of `Targets.Get`: returns the target registered under `name`,
or `none` (Go: nil) when absent. -/
def Targets.Get (l : Targets) (name : String) : Option Target :=
  match l.items.find? (fun p => p.1 == name) with
  | none => none
  | some p => some p.2

/-- Model of `Targets.Add`: registering an existing name panics
("Target already exists: " + name), modelled as `Except.error`; otherwise
the new target is stored and returned (the Go function returns the
`*Target` handle; here the updated registry is returned alongside it). -/
def Targets.Add (l : Targets) (name : String) (dependencies : List String)
    (code : Option TargetRunFunc) : Except String (Targets × Target) :=
  match l.Get name with
  | some _ => Except.error ("Target already exists: " ++ name)
  | none =>
    let t : Target := ⟨name, dependencies, code⟩
    Except.ok (⟨(name, t) :: l.items⟩, t)

/-- Model of `Target.AddDependency`: appends `dep` to the dependency list
of the target registered under `name` (in Go this mutates the `*Target`
stored in the map; here the registry is rebuilt with the updated entry). -/
def Targets.AddDependency (l : Targets) (name dep : String) : Targets :=
  ⟨l.items.map (fun p =>
    if p.1 == name then (p.1, ⟨p.2.Name, p.2.Dependencies ++ [dep], p.2.run⟩) else p)⟩

/-- The `for _, dep := range t.Dependencies` loop of `Targets.dfs`:
runs `f` (the recursive `dfs` at one less fuel) on each dependency in
order, threading the result list and the visited map, propagating the
first error, as the Go loop does. -/
def Targets.dfsDeps
    (f : List String → (String → Nat) → String →
      Option (Except ResolveErr (List String × (String → Nat)))) :
    List String → List String → (String → Nat) →
      Option (Except ResolveErr (List String × (String → Nat)))
  | [], result, visited => some (Except.ok (result, visited))
  | dep :: rest, result, visited =>
    match f result visited dep with
    | none => none
    | some (Except.error e) => some (Except.error e)
    | some (Except.ok (result2, visited2)) => Targets.dfsDeps f rest result2 visited2

/-- Model of `Targets.dfs` from `target.go`, with explicit recursion fuel
(`none` = fuel exhausted, proved unreachable for the fuel used by
`ComputeTargetRunOrder`). Mirrors the source line by line: the visited
state of `name` is read with default 0; state 1 yields the cycle error,
state 2 returns the accumulated result unchanged; an unregistered name
yields the unknown-target error; otherwise `name` is marked in-progress,
the dependencies are traversed in order, `name` is appended to the result
exactly when it carries an action, and `name` is marked done. -/
def Targets.dfs (l : Targets) :
    Nat → List String → (String → Nat) → String →
      Option (Except ResolveErr (List String × (String → Nat)))
  | 0, _, _, _ => none
  | fuel + 1, result, visited, name =>
    if visited name = 1 then some (Except.error ResolveErr.cycle)
    else if visited name = 2 then some (Except.ok (result, visited))
    else
      match l.Get name with
      | none => some (Except.error (ResolveErr.unknownTarget name))
      | some t =>
        let visited1 : String → Nat := fun m => if m = name then 1 else visited m
        match Targets.dfsDeps (fun r v n => Targets.dfs l fuel r v n)
            t.Dependencies result visited1 with
        | none => none
        | some (Except.error e) => some (Except.error e)
        | some (Except.ok (result2, visited2)) =>
          let result3 := if t.run.isSome then result2 ++ [name] else result2
          some (Except.ok (result3, fun m => if m = name then 2 else visited2 m))

/-- Model of `Targets.ComputeTargetRunOrder`: starts `dfs` with an empty
result and an empty visited map. The fuel `items.length + 1` is proved
sufficient (see the termination theorem), so the out-of-fuel default
(arbitrarily the cycle error) is unreachable. -/
def Targets.ComputeTargetRunOrder (l : Targets) (name : String) :
    Except ResolveErr (List String) :=
  match l.dfs (l.items.length + 1) [] (fun _ => 0) name with
  | none => Except.error ResolveErr.cycle
  | some (Except.error e) => Except.error e
  | some (Except.ok (result, _)) => Except.ok result

/-- The declared-dependency edge relation of a registry: `depRel l n m`
holds when the target registered under `n` lists `m` in its
`Dependencies`. -/
def depRel (l : Targets) (n m : String) : Prop :=
  ∃ t, l.Get n = some t ∧ m ∈ t.Dependencies

/-- Reflexive-transitive reachability along declared dependencies. -/
def Reach (l : Targets) : String → String → Prop :=
  Relation.ReflTransGen (depRel l)

/-- Transitive (at least one edge) reachability along declared
dependencies. -/
def Reach1 (l : Targets) : String → String → Prop :=
  Relation.TransGen (depRel l)

/-- `n` is registered and carries an action (`t.run != nil` in the Go
source). -/
def hasAction (l : Targets) (n : String) : Prop :=
  ∃ t, l.Get n = some t ∧ t.run.isSome = true

/-- A name is marked in the visited map (state 1 or 2). -/
def markedB (visited : String → Nat) (m : String) : Bool :=
  visited m == 1 || visited m == 2

/-- Number of registry entries whose name is still unmarked; the measure
that shrinks when `dfs` marks a target in-progress. -/
def pend (l : Targets) (visited : String → Nat) : Nat :=
  l.items.countP (fun p => !(markedB visited p.1))

/-- The action stored for `n`, if `n` is registered and has one. -/
def Targets.actResult (l : Targets) (n : String) : Option TargetRunFunc :=
  (l.Get n).bind Target.run

/-- Model of the core (major, minor, patch) of `semver.Version` with its
numeric comparison, as used by `b.GO_VERSION.LessThan(b.Code.MinGoVersion)`
in `run.go` (the semver library is an external collaborator; prerelease
identifiers are outside the engine's scope). -/
structure Version where
  major : Nat
  minor : Nat
  patch : Nat
deriving DecidableEq, Repr

/-- Numeric lexicographic comparison on (major, minor, patch). -/
def Version.LessThan (a b : Version) : Bool :=
  Nat.blt a.major b.major ||
    (a.major == b.major &&
      (Nat.blt a.minor b.minor ||
        (a.minor == b.minor && Nat.blt a.patch b.patch)))

/-- The fields of `CodeInfo` that `RunTarget` consults. -/
structure CodeInfo where
  MinGoVersion : Version
deriving DecidableEq, Repr

/-- Model of the outcomes of the Go executor: the action's error is
returned as is, after the loop prints
"[time i/n] ERROR executing target name: err"; `actionError` bundles the
returned error with the position/total/name data of that report.
`resolveError` wraps an error returned by `ComputeTargetRunOrder` and
`unsupportedGoVersion` models the unsupported-go-version error from the
version gate. -/
inductive RunError where
  | unsupportedGoVersion (goVersion minGoVersion : Version)
  | resolveError (e : ResolveErr)
  | actionError (position total : Nat) (target : String) (msg : String)
deriving DecidableEq, Repr

/-- The `for i, n := range ts` loop of `Builder.RunTarget`: looks each
name up, invokes its action, stops at the first failing action. The
returned list records, in order, the targets whose action was invoked
(the observable side channel); `none` models the nil dereference the Go
loop would hit on a name without a registered action (unreachable for
orders produced by `ComputeTargetRunOrder`). -/
def Targets.runLoop (l : Targets) (total : Nat) :
    Nat → List String → Option (List String × Except RunError Unit)
  | _, [] => some ([], Except.ok ())
  | i, n :: rest =>
    match l.Get n with
    | none => none
    | some t =>
      match t.run with
      | none => none
      | some act =>
        match act with
        | Except.error msg =>
          some ([n], Except.error (RunError.actionError i total n msg))
        | Except.ok _ =>
          match Targets.runLoop l total (i + 1) rest with
          | none => none
          | some (invoked, res) => some (n :: invoked, res)

/-- The fields of `ExecutableInfo` that `createDefaultTargets` consults. -/
structure ExecutableInfo where
  Name : String
  Archs : List String
deriving DecidableEq, Repr

/-- The inner `for _, arch := range exec.Archs` loop of
`Builder.createDefaultTargets`: adds the build leaf, appends it to the
per-executable build aggregator `betName`, adds the zip leaf (whose
dependency list is exactly the build leaf), and appends it to the
per-executable zip aggregator `zetName`. -/
def synthArchLoop (buildAct zipAct : ExecutableInfo → String → TargetRunFunc)
    (e : ExecutableInfo) (betName zetName : String) :
    List String → Targets → Except String Targets
  | [], l => Except.ok l
  | arch :: rest, l =>
    match l.Add (betName ++ ":" ++ arch) [] (some (buildAct e arch)) with
    | Except.error msg => Except.error msg
    | Except.ok (l1, beat) =>
      match (l1.AddDependency betName beat.Name).Add (zetName ++ ":" ++ arch)
          [beat.Name] (some (zipAct e arch)) with
      | Except.error msg => Except.error msg
      | Except.ok (l3, zeat) =>
        synthArchLoop buildAct zipAct e betName zetName rest
          (l3.AddDependency zetName zeat.Name)

/-- The outer `for _, exec := range b.Executables` loop of
`Builder.createDefaultTargets`: adds the per-executable aggregators
(no action), wires them under the top-level `btName` / `ztName`
aggregators, then runs the per-architecture loop. -/
def synthExecLoop (buildAct zipAct : ExecutableInfo → String → TargetRunFunc)
    (btName ztName : String) :
    List ExecutableInfo → Targets → Except String Targets
  | [], l => Except.ok l
  | e :: rest, l =>
    match l.Add (btName ++ ":" ++ e.Name) [] none with
    | Except.error msg => Except.error msg
    | Except.ok (l1, bet) =>
      match (l1.AddDependency btName bet.Name).Add (ztName ++ ":" ++ e.Name) [] none with
      | Except.error msg => Except.error msg
      | Except.ok (l3, zet) =>
        match synthArchLoop buildAct zipAct e bet.Name zet.Name e.Archs
            (l3.AddDependency ztName zet.Name) with
        | Except.error msg => Except.error msg
        | Except.ok l4 => synthExecLoop buildAct zipAct btName ztName rest l4

/-- The fields of `Builder` that the target engine consults; the field
names follow `builder.go` (`b.Targets`, `b.GO_VERSION`,
`b.Code.MinGoVersion`). -/
structure Builder where
  Code : CodeInfo
  Targets : Build.Targets
  GO_VERSION : Version

/-- Model of `Builder.RunTarget` from `run.go`: fails when the detected Go
version is below the module's minimum, otherwise computes the run order
and executes it sequentially. Returns the invoked-target trace together
with the result (`none` would model the loop's nil dereference, which is
unreachable for orders produced by `ComputeTargetRunOrder`). -/
def Builder.RunTarget (b : Builder) (name : String) :
    Option (List String × Except RunError Unit) :=
  if b.GO_VERSION.LessThan b.Code.MinGoVersion then
    some ([], Except.error (RunError.unsupportedGoVersion b.GO_VERSION b.Code.MinGoVersion))
  else
    match b.Targets.ComputeTargetRunOrder name with
    | Except.error e => some ([], Except.error (RunError.resolveError e))
    | Except.ok ts => b.Targets.runLoop ts.length 0 ts

/-- Model of `Builder.createDefaultTargets` from `builder.go`, starting
from the empty registry `NewBuilder` initializes. The concrete closures
the Go code installs (`go generate`, `go test`, `RunCleanZip`, `RunBuild`,
`RunZip`) wrap external processes; their results are the `...Act`
parameters. A duplicate name (Go: panic in `Add`) surfaces as
`Except.error`. -/
def Builder.createDefaultTargets (execs : List ExecutableInfo)
    (generateAct testAct cleanZipAct : TargetRunFunc)
    (buildAct zipAct : ExecutableInfo → String → TargetRunFunc) :
    Except String Build.Targets :=
  match (⟨[]⟩ : Build.Targets).Add "generate" [] (some generateAct) with
  | Except.error msg => Except.error msg
  | Except.ok (l, _) =>
  match l.Add "test" [] (some testAct) with
  | Except.error msg => Except.error msg
  | Except.ok (l, _) =>
  match l.Add "clean-zip" [] (some cleanZipAct) with
  | Except.error msg => Except.error msg
  | Except.ok (l, _) =>
  match l.Add "build" [] none with
  | Except.error msg => Except.error msg
  | Except.ok (l, bt) =>
  match l.Add "zip" ["clean-zip"] none with
  | Except.error msg => Except.error msg
  | Except.ok (l, zt) =>
  match synthExecLoop buildAct zipAct bt.Name zt.Name execs l with
  | Except.error msg => Except.error msg
  | Except.ok l =>
  match l.Add "all" ["build", "test", "zip"] none with
  | Except.error msg => Except.error msg
  | Except.ok (l, _) => Except.ok l

/-- The registry state after the five base registrations of
`createDefaultTargets` (generate, test, clean-zip, build, zip), before the
per-executable loop. -/
def initReg (generateAct testAct cleanZipAct : TargetRunFunc) : Targets :=
  ⟨[("zip", ⟨"zip", ["clean-zip"], none⟩),
    ("build", ⟨"build", [], none⟩),
    ("clean-zip", ⟨"clean-zip", [], some cleanZipAct⟩),
    ("test", ⟨"test", [], some testAct⟩),
    ("generate", ⟨"generate", [], some generateAct⟩)]⟩

/-- An always-succeeding action, used for concrete example registries. -/
def actOk : TargetRunFunc := Except.ok ()

/-- The diamond registry: D depends on B and C, both depend on A, all four
action-bearing. -/
def diamondReg : Targets :=
  ⟨[("D", ⟨"D", ["B", "C"], some actOk⟩),
    ("B", ⟨"B", ["A"], some actOk⟩),
    ("C", ⟨"C", ["A"], some actOk⟩),
    ("A", ⟨"A", [], some actOk⟩)]⟩

/-- A registry whose only target references a dependency that was never
registered. -/
def danglingReg : Targets :=
  ⟨[("a", ⟨"a", ["b"], some actOk⟩)]⟩

/-- A registry with a single self-contained action-bearing target. -/
def soloReg : Targets :=
  ⟨[("solo", ⟨"solo", [], some actOk⟩)]⟩

/-- A registry with a single self-depending target. -/
def selfLoopReg : Targets :=
  ⟨[("a", ⟨"a", ["a"], some actOk⟩)]⟩

/-- A registry where the root lists an unregistered dependency before a
self-depending one. -/
def ghostReg : Targets :=
  ⟨[("r", ⟨"r", ["ghost", "a"], some actOk⟩),
    ("a", ⟨"a", ["a"], some actOk⟩)]⟩

/-- An aggregator (no action) over a single action-bearing target. -/
def aggReg : Targets :=
  ⟨[("agg", ⟨"agg", ["x"], none⟩),
    ("x", ⟨"x", [], some actOk⟩)]⟩

/-- A three-step plan under a root aggregator, where the second step's
action fails. -/
def threeStepReg : Targets :=
  ⟨[("all3", ⟨"all3", ["s1", "s2", "s3"], none⟩),
    ("s1", ⟨"s1", [], some (Except.ok ())⟩),
    ("s2", ⟨"s2", [], some (Except.error "boom")⟩),
    ("s3", ⟨"s3", [], some (Except.ok ())⟩)]⟩

/-- A builder over `threeStepReg` whose Go toolchain satisfies the minimum
version. -/
def threeStepBuilder : Builder :=
  ⟨⟨⟨1, 17, 0⟩⟩, threeStepReg, ⟨1, 19, 2⟩⟩

/-- A builder whose detected Go toolchain is older than the declared
minimum version. -/
def oldGoBuilder : Builder :=
  ⟨⟨⟨1, 17, 0⟩⟩, threeStepReg, ⟨1, 16, 5⟩⟩

/-- The two executables of the grid-synthesis scenario, each for
linux/amd64 and windows/amd64. -/
def execsAB : List ExecutableInfo :=
  [⟨"A", ["linux/amd64", "windows/amd64"]⟩,
   ⟨"B", ["linux/amd64", "windows/amd64"]⟩]

/-- The registry `createDefaultTargets` synthesizes for `execsAB` with
always-succeeding actions (checked below by a definitional equality). -/
def gridReg : Targets :=
  ⟨[("all", ⟨"all", ["build", "test", "zip"], none⟩),
    ("zip:B:windows/amd64",
      ⟨"zip:B:windows/amd64", ["build:B:windows/amd64"], some actOk⟩),
    ("build:B:windows/amd64", ⟨"build:B:windows/amd64", [], some actOk⟩),
    ("zip:B:linux/amd64",
      ⟨"zip:B:linux/amd64", ["build:B:linux/amd64"], some actOk⟩),
    ("build:B:linux/amd64", ⟨"build:B:linux/amd64", [], some actOk⟩),
    ("zip:B", ⟨"zip:B", ["zip:B:linux/amd64", "zip:B:windows/amd64"], none⟩),
    ("build:B", ⟨"build:B", ["build:B:linux/amd64", "build:B:windows/amd64"], none⟩),
    ("zip:A:windows/amd64",
      ⟨"zip:A:windows/amd64", ["build:A:windows/amd64"], some actOk⟩),
    ("build:A:windows/amd64", ⟨"build:A:windows/amd64", [], some actOk⟩),
    ("zip:A:linux/amd64",
      ⟨"zip:A:linux/amd64", ["build:A:linux/amd64"], some actOk⟩),
    ("build:A:linux/amd64", ⟨"build:A:linux/amd64", [], some actOk⟩),
    ("zip:A", ⟨"zip:A", ["zip:A:linux/amd64", "zip:A:windows/amd64"], none⟩),
    ("build:A", ⟨"build:A", ["build:A:linux/amd64", "build:A:windows/amd64"], none⟩),
    ("zip", ⟨"zip", ["clean-zip", "zip:A", "zip:B"], none⟩),
    ("build", ⟨"build", ["build:A", "build:B"], none⟩),
    ("clean-zip", ⟨"clean-zip", [], some actOk⟩),
    ("test", ⟨"test", [], some actOk⟩),
    ("generate", ⟨"generate", [], some actOk⟩)]⟩

/-! ### Basic registry lemmas -/

theorem Targets.Get_cons (k : String) (t : Target) (items : List (String × Target))
    (m : String) :
    Targets.Get ⟨(k, t) :: items⟩ m = if k = m then some t else Targets.Get ⟨items⟩ m := by
  by_cases h : k = m
  · simp only [Targets.Get, if_pos h]
    rw [List.find?_cons_of_pos]
    simp [h]
  · simp only [Targets.Get, if_neg h]
    rw [List.find?_cons_of_neg]
    simp [h]

theorem Targets.Add_ok_elim {l l2 : Targets} {name : String} {deps : List String}
    {code : Option TargetRunFunc} {t : Target}
    (h : l.Add name deps code = Except.ok (l2, t)) :
    l.Get name = none ∧ t = ⟨name, deps, code⟩ ∧ l2 = ⟨(name, t) :: l.items⟩ := by
  unfold Targets.Add at h
  cases hg : l.Get name with
  | some u => rw [hg] at h; cases h
  | none =>
    rw [hg] at h
    simp only [Except.ok.injEq, Prod.mk.injEq] at h
    exact ⟨rfl, h.2.symm, by rw [← h.1, ← h.2]⟩

theorem Targets.Get_Add_ok {l l2 : Targets} {name : String} {deps : List String}
    {code : Option TargetRunFunc} {t : Target}
    (h : l.Add name deps code = Except.ok (l2, t)) (m : String) :
    l2.Get m = if name = m then some t else l.Get m := by
  obtain ⟨-, -, h2⟩ := Targets.Add_ok_elim h
  rw [h2]
  exact Targets.Get_cons name t l.items m

/-- A successful `Add` preserves every lookup that already succeeded. -/
theorem Targets.Get_mono_Add {l l2 : Targets} {name : String} {deps : List String}
    {code : Option TargetRunFunc} {t u : Target} {m : String}
    (h : l.Add name deps code = Except.ok (l2, t)) (hm : l.Get m = some u) :
    l2.Get m = some u := by
  obtain ⟨hnone, -, -⟩ := Targets.Add_ok_elim h
  rw [Targets.Get_Add_ok h m]
  have : name ≠ m := by
    intro he
    rw [he, hm] at hnone
    cases hnone
  rw [if_neg this]
  exact hm

theorem Targets.Get_AddDependency_ne (l : Targets) (name dep m : String) (h : name ≠ m) :
    (l.AddDependency name dep).Get m = l.Get m := by
  show Targets.Get ⟨l.items.map _⟩ m = Targets.Get ⟨l.items⟩ m
  induction l.items with
  | nil => rfl
  | cons p rest ih =>
    rcases p with ⟨k, u⟩
    by_cases hk : k == name
    · have hkm : k ≠ m := by
        intro he
        exact h ((eq_of_beq hk).symm.trans he)
      simp only [List.map_cons, hk, if_pos]
      rw [Targets.Get_cons, Targets.Get_cons, if_neg hkm, if_neg hkm]
      exact ih
    · simp only [List.map_cons, hk]
      rw [if_neg (by simp [hk]), Targets.Get_cons, Targets.Get_cons]
      by_cases hkm : k = m
      · rw [if_pos hkm, if_pos hkm]
      · rw [if_neg hkm, if_neg hkm]
        exact ih

/-! ### String helpers -/

theorem ne_of_head_ne (s t : String) (c d : Char) (hs : s.data.head? = some c)
    (ht : t.data.head? = some d) (h : c ≠ d) : s ≠ t := by
  intro he
  rw [he] at hs
  rw [hs] at ht
  exact h (Option.some.inj ht)

theorem append_colon_ne (s a : String) : s ++ ":" ++ a ≠ s := by
  intro h
  have h2 := congrArg String.length h
  rw [String.length_append, String.length_append,
    show (":" : String).length = 1 from rfl] at h2
  omega

theorem ne_append_colon (s a : String) : s ≠ s ++ ":" ++ a := fun h =>
  append_colon_ne s a h.symm

/-! ### Counting helpers for the termination measure -/

theorem countP_lt_of_mem {α : Type} {L : List α} {p q : α → Bool} {a : α}
    (ha : a ∈ L) (hpa : p a = false) (hqa : q a = true)
    (hpq : ∀ x ∈ L, p x = true → q x = true) :
    L.countP p < L.countP q := by
  induction L with
  | nil => cases ha
  | cons b L ih =>
    rw [List.countP_cons, List.countP_cons]
    rcases List.mem_cons.mp ha with rfl | hmem
    · rw [hpa, hqa]
      simp
      have hle := List.countP_mono_left (l := L) (p := p) (q := q)
        (fun x hx => hpq x (List.mem_cons_of_mem _ hx))
      omega
    · have hih := ih hmem (fun x hx => hpq x (List.mem_cons_of_mem _ hx))
      have hle : (if p b = true then 1 else 0) ≤ (if q b = true then 1 else 0) := by
        cases hpb : p b
        · simp
        · rw [hpq b (List.mem_cons_self _ _) hpb]
      omega

theorem two_le_length_of_mem {α : Type} {L : List α} {a b : α}
    (ha : a ∈ L) (hb : b ∈ L) (hne : a ≠ b) : 2 ≤ L.length := by
  cases L with
  | nil => cases ha
  | cons x L2 =>
    cases L2 with
    | nil =>
      rw [List.mem_singleton] at ha hb
      exact absurd (ha.trans hb.symm) hne
    | cons y L3 => simp

theorem indexOf_append_right_self {α : Type} [DecidableEq α] {a : α} {L : List α}
    (h : a ∉ L) : (L ++ [a]).indexOf a = L.length := by
  rw [List.indexOf_append_of_not_mem h]
  simp

/-! ### The `dfs` state invariant -/

/-- Invariant tying the accumulated result list `r` and visited map `vis`
of `dfs` to the registry `l`: done targets (state 2) are registered, have
done dependencies, lie on no dependency cycle, and appear in `r` exactly
when they carry an action; `r` holds done action-bearing targets without
duplicates, each strictly after all of its action-bearing transitive
dependencies. -/
structure Inv (l : Targets) (r : List String) (vis : String → Nat) : Prop where
  done_present : ∀ n, vis n = 2 → ∃ t, l.Get n = some t ∧ ∀ d ∈ t.Dependencies, vis d = 2
  done_acyclic : ∀ n, vis n = 2 → ¬ Reach1 l n n
  done_action_mem : ∀ n t, vis n = 2 → l.Get n = some t → t.run.isSome = true → n ∈ r
  mem_spec : ∀ n ∈ r, vis n = 2 ∧ hasAction l n
  nodup : r.Nodup
  ordered : ∀ n ∈ r, ∀ m, Reach1 l n m → hasAction l m →
    m ∈ r ∧ r.indexOf m < r.indexOf n

theorem Inv.start (l : Targets) : Inv l [] (fun _ => 0) := by
  refine ⟨?_, ?_, ?_, ?_, ?_, ?_⟩
  · intro n hn
    exact absurd hn (by decide)
  · intro n hn
    exact absurd hn (by decide)
  · intro n t hn
    exact absurd hn (by decide)
  · intro n hn
    cases hn
  · exact List.nodup_nil
  · intro n hn
    cases hn

/-- Everything reachable from a done target is done. -/
theorem Inv.reach_done {l : Targets} {r : List String} {vis : String → Nat}
    (hInv : Inv l r vis) {d m : String} (hd : vis d = 2) (h : Reach l d m) :
    vis m = 2 := by
  induction h with
  | refl => exact hd
  | tail _ hbc ih =>
    obtain ⟨t, hget, hmem⟩ := hbc
    obtain ⟨t2, hget2, hdeps⟩ := hInv.done_present _ ih
    rw [hget] at hget2
    obtain rfl : t = t2 := Option.some.inj hget2
    exact hdeps _ hmem

/-- Marking a not-yet-done target in-progress preserves the invariant. -/
theorem Inv.mark_gray {l : Targets} {r : List String} {vis : String → Nat}
    (hInv : Inv l r vis) (name : String) (h2 : vis name ≠ 2) :
    Inv l r (fun m => if m = name then 1 else vis m) := by
  have hdone : ∀ n, (if n = name then 1 else vis n) = 2 → vis n = 2 := by
    intro n hn
    by_cases he : n = name
    · rw [if_pos he] at hn
      exact absurd hn (by decide)
    · rwa [if_neg he] at hn
  have hdone2 : ∀ n, vis n = 2 → (if n = name then 1 else vis n) = 2 := by
    intro n hn
    have he : n ≠ name := by
      intro h
      exact h2 (h ▸ hn)
    rwa [if_neg he]
  refine ⟨?_, ?_, ?_, ?_, hInv.nodup, hInv.ordered⟩
  · intro n hn
    obtain ⟨t, hget, hdeps⟩ := hInv.done_present n (hdone n hn)
    exact ⟨t, hget, fun d hd => hdone2 d (hdeps d hd)⟩
  · intro n hn
    exact hInv.done_acyclic n (hdone n hn)
  · intro n t hn hget hrun
    exact hInv.done_action_mem n t (hdone n hn) hget hrun
  · intro n hn
    obtain ⟨hv, ha⟩ := hInv.mem_spec n hn
    exact ⟨hdone2 n hv, ha⟩

/-- Completing a target whose dependencies are all done preserves the
invariant: the target is appended to the result exactly when it carries
an action, and is marked done. -/
theorem Inv.mark_done {l : Targets} {r : List String} {vis : String → Nat}
    {name : String} {t : Target}
    (hInv : Inv l r vis) (hget : l.Get name = some t) (hgray : vis name = 1)
    (hdeps : ∀ d ∈ t.Dependencies, vis d = 2) :
    Inv l (if t.run.isSome then r ++ [name] else r)
      (fun m => if m = name then 2 else vis m) := by
  have hnotmem : name ∉ r := by
    intro hmem
    have := (hInv.mem_spec name hmem).1
    rw [this] at hgray
    cases hgray
  have hmem_or : ∀ n, n ∈ (if t.run.isSome then r ++ [name] else r) →
      n ∈ r ∨ (n = name ∧ t.run.isSome = true) := by
    intro n hn
    cases hrun : t.run.isSome
    · rw [hrun] at hn
      simp only [if_neg (by decide : ¬ (false = true))] at hn
      exact Or.inl hn
    · rw [hrun] at hn
      simp only [eq_self_iff_true, if_true] at hn
      rcases List.mem_append.mp hn with h | h
      · exact Or.inl h
      · exact Or.inr ⟨List.mem_singleton.mp h, rfl⟩
  have hvis2 : ∀ n, (if n = name then 2 else vis n) = 2 ↔ (n = name ∨ vis n = 2) := by
    intro n
    by_cases he : n = name
    · simp [he]
    · simp [he]
  -- a first dependency step out of `name` lands on a done target
  have hstep_done : ∀ m, depRel l name m → vis m = 2 := by
    intro m hm
    obtain ⟨t2, hget2, hmem2⟩ := hm
    rw [hget] at hget2
    obtain rfl : t = t2 := Option.some.inj hget2
    exact hdeps _ hmem2
  -- everything strictly reachable from `name` is done (and is not `name`)
  have hreach1_done : ∀ m, Reach1 l name m → vis m = 2 := by
    intro m hm
    obtain ⟨b, hb, hbm⟩ := (Relation.TransGen.head'_iff).mp hm
    exact hInv.reach_done (hstep_done b hb) hbm
  have hname_ne_done : ∀ m, vis m = 2 → m ≠ name := by
    intro m hm he
    rw [he, hgray] at hm
    cases hm
  refine ⟨?_, ?_, ?_, ?_, ?_, ?_⟩
  · intro n hn
    rcases (hvis2 n).mp hn with rfl | hd
    · refine ⟨t, hget, fun d hd => ?_⟩
      exact (hvis2 d).mpr (Or.inr (hdeps d hd))
    · obtain ⟨t2, hget2, hdeps2⟩ := hInv.done_present n hd
      exact ⟨t2, hget2, fun d hdm => (hvis2 d).mpr (Or.inr (hdeps2 d hdm))⟩
  · intro n hn
    rcases (hvis2 n).mp hn with rfl | hd
    · intro hcyc
      exact absurd rfl (hname_ne_done n (hreach1_done n hcyc))
    · exact hInv.done_acyclic n hd
  · intro n t2 hn hget2 hrun2
    rcases (hvis2 n).mp hn with rfl | hd
    · rw [hget] at hget2
      obtain rfl : t = t2 := Option.some.inj hget2
      rw [if_pos hrun2]
      exact List.mem_append.mpr (Or.inr (List.mem_singleton.mpr rfl))
    · have hmem := hInv.done_action_mem n t2 hd hget2 hrun2
      cases hrun : t.run.isSome
      · simpa [hrun] using hmem
      · simp only [eq_self_iff_true, if_true]
        exact List.mem_append.mpr (Or.inl hmem)
  · intro n hn
    rcases hmem_or n hn with h | ⟨rfl, hrun⟩
    · obtain ⟨hv, ha⟩ := hInv.mem_spec n h
      exact ⟨(hvis2 n).mpr (Or.inr hv), ha⟩
    · exact ⟨(hvis2 n).mpr (Or.inl rfl), ⟨t, hget, hrun⟩⟩
  · cases hrun : t.run.isSome
    · simpa [hrun] using hInv.nodup
    · simp only [eq_self_iff_true, if_true]
      exact List.nodup_append.mpr ⟨hInv.nodup, List.nodup_singleton name,
        by simpa [List.disjoint_singleton] using hnotmem⟩
  · intro n hn m hreach ha
    rcases hmem_or n hn with h | ⟨rfl, hrun⟩
    · obtain ⟨hm, hidx⟩ := hInv.ordered n h m hreach ha
      cases hrun : t.run.isSome
      · simp only [if_neg (by decide : ¬ (false = true))]
        exact ⟨hm, hidx⟩
      · simp only [eq_self_iff_true, if_true]
        rw [List.indexOf_append_of_mem hm, List.indexOf_append_of_mem h]
        exact ⟨List.mem_append.mpr (Or.inl hm), hidx⟩
    · -- n = name: every action-bearing strict dependency is already in r
      have hm2 : vis m = 2 := hreach1_done m hreach
      obtain ⟨tm, hgetm, hrunm⟩ := ha
      have hmemm := hInv.done_action_mem m tm hm2 hgetm hrunm
      rw [if_pos hrun]
      refine ⟨List.mem_append.mpr (Or.inl hmemm), ?_⟩
      rw [List.indexOf_append_of_mem hmemm, indexOf_append_right_self hnotmem]
      exact List.indexOf_lt_length.mpr hmemm

/-- Postcondition of the dependency loop, given the postcondition of each
recursive call: the invariant is preserved, all listed dependencies end up
done, done marks are monotone and in-progress marks are unchanged. -/
theorem dfsDeps_ok_post (l : Targets)
    (f : List String → (String → Nat) → String →
      Option (Except ResolveErr (List String × (String → Nat))))
    (Hf : ∀ r vis d r2 vis2, Inv l r vis → f r vis d = some (Except.ok (r2, vis2)) →
      Inv l r2 vis2 ∧ vis2 d = 2 ∧ (∀ m, vis m = 2 → vis2 m = 2) ∧
        (∀ m, vis2 m = 1 ↔ vis m = 1)) :
    ∀ ds r vis r2 vis2, Inv l r vis →
      Targets.dfsDeps f ds r vis = some (Except.ok (r2, vis2)) →
      Inv l r2 vis2 ∧ (∀ d ∈ ds, vis2 d = 2) ∧ (∀ m, vis m = 2 → vis2 m = 2) ∧
        (∀ m, vis2 m = 1 ↔ vis m = 1) := by
  intro ds
  induction ds with
  | nil =>
    intro r vis r2 vis2 hInv h
    simp only [Targets.dfsDeps, Option.some.injEq, Except.ok.injEq, Prod.mk.injEq] at h
    obtain ⟨rfl, rfl⟩ := h
    exact ⟨hInv, by simp, fun m hm => hm, fun m => Iff.rfl⟩
  | cons d rest ih =>
    intro r vis r2 vis2 hInv h
    cases hf : f r vis d with
    | none =>
      simp only [Targets.dfsDeps, hf] at h
      cases h
    | some res =>
      cases res with
      | error e =>
        simp only [Targets.dfsDeps, hf] at h
        cases h
      | ok p =>
        obtain ⟨r1, vis1⟩ := p
        simp only [Targets.dfsDeps, hf] at h
        obtain ⟨hInv1, hd1, hmono1, hgray1⟩ := Hf r vis d r1 vis1 hInv hf
        obtain ⟨hInv2, hds2, hmono2, hgray2⟩ := ih r1 vis1 r2 vis2 hInv1 h
        refine ⟨hInv2, ?_, fun m hm => hmono2 m (hmono1 m hm),
          fun m => (hgray2 m).trans (hgray1 m)⟩
        intro d2 hd2
        rcases List.mem_cons.mp hd2 with rfl | hmem
        · exact hmono2 d2 hd1
        · exact hds2 d2 hmem

/-- Postcondition of a successful `dfs` call: the invariant is preserved,
the visited target ends done, done marks are monotone and in-progress
marks are unchanged. -/
theorem dfs_ok_post (l : Targets) :
    ∀ fuel r vis name r2 vis2, Inv l r vis →
      l.dfs fuel r vis name = some (Except.ok (r2, vis2)) →
      Inv l r2 vis2 ∧ vis2 name = 2 ∧ (∀ m, vis m = 2 → vis2 m = 2) ∧
        (∀ m, vis2 m = 1 ↔ vis m = 1) := by
  intro fuel
  induction fuel with
  | zero =>
    intro r vis name r2 vis2 _ h
    exact Option.noConfusion h
  | succ fuel ih =>
    intro r vis name r2 vis2 hInv h
    simp only [Targets.dfs] at h
    by_cases hv1 : vis name = 1
    · rw [if_pos hv1] at h
      exact absurd h (by simp)
    rw [if_neg hv1] at h
    by_cases hv2 : vis name = 2
    · rw [if_pos hv2] at h
      simp only [Option.some.injEq, Except.ok.injEq, Prod.mk.injEq] at h
      obtain ⟨rfl, rfl⟩ := h
      exact ⟨hInv, hv2, fun m hm => hm, fun m => Iff.rfl⟩
    rw [if_neg hv2] at h
    cases hget : l.Get name with
    | none =>
      simp only [hget] at h
      cases h
    | some t =>
      simp only [hget] at h
      cases hd : Targets.dfsDeps (l.dfs fuel)
          t.Dependencies r (fun m => if m = name then 1 else vis m) with
      | none =>
        rw [hd] at h
        cases h
      | some res =>
        cases res with
        | error e =>
          rw [hd] at h
          cases h
        | ok p =>
          obtain ⟨rr, vv⟩ := p
          rw [hd] at h
          simp only [Option.some.injEq, Except.ok.injEq, Prod.mk.injEq] at h
          obtain ⟨hr3, hv3⟩ := h
          have hInv1 : Inv l r (fun m => if m = name then 1 else vis m) :=
            hInv.mark_gray name hv2
          obtain ⟨hInv2, hds, hmono, hgray⟩ :=
            dfsDeps_ok_post l (l.dfs fuel)
              (fun r vis d r2 vis2 hI hcall => ih r vis d r2 vis2 hI hcall)
              t.Dependencies r (fun m => if m = name then 1 else vis m) rr vv hInv1 hd
          have hvvname : vv name = 1 := (hgray name).mpr (by simp)
          have hInv3 := Inv.mark_done hInv2 hget hvvname hds
          rw [hr3, hv3] at hInv3
          refine ⟨hInv3, ?_, ?_, ?_⟩
          · rw [← hv3]
            simp
          · intro m hm
            have hne : m ≠ name := by
              intro he
              exact hv2 (he ▸ hm)
            have h1 : (if m = name then 1 else vis m) = 2 := by rwa [if_neg hne]
            have := hmono m h1
            rw [← hv3]
            simp only [if_neg hne]
            exact this
          · intro m
            rw [← hv3]
            by_cases he : m = name
            · subst he
              simp only [eq_self_iff_true, if_true]
              constructor
              · intro h12
                exact absurd h12 (by decide)
              · intro h12
                exact absurd h12 hv1
            · simp only [if_neg he]
              have := hgray m
              rw [if_neg he] at this
              exact this

/-! ### Termination of `dfs` -/

theorem pend_le_of_post {l : Targets} {vis vis2 : String → Nat}
    (hmono : ∀ m, vis m = 2 → vis2 m = 2) (hgray : ∀ m, vis2 m = 1 ↔ vis m = 1) :
    pend l vis2 ≤ pend l vis := by
  refine List.countP_mono_left ?_
  intro p _ hp
  simp only [markedB, Bool.not_eq_true', Bool.or_eq_false_iff, beq_eq_false_iff_ne] at hp ⊢
  obtain ⟨h1, h2⟩ := hp
  constructor
  · intro he
    exact h1 ((hgray p.1).mpr he)
  · intro he
    exact h2 (hmono p.1 he)

theorem pend_mark_lt {l : Targets} {vis : String → Nat} {name : String} {t : Target}
    (hget : l.Get name = some t) (hv1 : vis name ≠ 1) (hv2 : vis name ≠ 2) :
    pend l (fun m => if m = name then 1 else vis m) < pend l vis := by
  unfold Targets.Get at hget
  cases hf : l.items.find? (fun p => p.1 == name) with
  | none => rw [hf] at hget; cases hget
  | some q =>
    have hqmem : q ∈ l.items := List.mem_of_find?_eq_some hf
    have hqname : q.1 = name := by
      have := List.find?_some hf
      exact eq_of_beq this
    refine countP_lt_of_mem hqmem ?_ ?_ ?_
    · simp [markedB, hqname]
    · simp only [markedB, hqname, Bool.not_eq_true', Bool.or_eq_false_iff,
        beq_eq_false_iff_ne]
      exact ⟨hv1, hv2⟩
    · intro x _ hx
      simp only [markedB, Bool.not_eq_true', Bool.or_eq_false_iff,
        beq_eq_false_iff_ne] at hx ⊢
      by_cases he : x.1 = name
      · rw [if_pos he] at hx
        exact absurd rfl hx.1
      · rw [if_neg he] at hx
        exact hx

theorem dfsDeps_term (l : Targets) (fuel : Nat)
    (Hterm : ∀ r vis name, Inv l r vis → pend l vis < fuel →
      l.dfs fuel r vis name ≠ none) :
    ∀ ds r vis, Inv l r vis → pend l vis < fuel →
      Targets.dfsDeps (l.dfs fuel) ds r vis ≠ none := by
  intro ds
  induction ds with
  | nil =>
    intro r vis _ _ h
    simp only [Targets.dfsDeps] at h
    exact Option.noConfusion h
  | cons d rest ih =>
    intro r vis hInv hpend h
    cases hc : l.dfs fuel r vis d with
    | none => exact Hterm r vis d hInv hpend hc
    | some res =>
      cases res with
      | error e =>
        simp only [Targets.dfsDeps, hc] at h
        exact Option.noConfusion h
      | ok p =>
        obtain ⟨r1, vis1⟩ := p
        simp only [Targets.dfsDeps, hc] at h
        obtain ⟨hInv1, -, hmono, hgray⟩ := dfs_ok_post l fuel r vis d r1 vis1 hInv hc
        exact ih r1 vis1 hInv1
          (Nat.lt_of_le_of_lt (pend_le_of_post hmono hgray) hpend) h

/-- `dfs` never exhausts fuel larger than the number of unmarked registry
entries: the recursion depth is bounded because each level marks a fresh
registry entry in-progress. -/
theorem dfs_term (l : Targets) :
    ∀ fuel r vis name, Inv l r vis → pend l vis < fuel →
      l.dfs fuel r vis name ≠ none := by
  intro fuel
  induction fuel with
  | zero =>
    intro r vis name _ hpend
    exact absurd hpend (Nat.not_lt_zero _)
  | succ fuel ih =>
    intro r vis name hInv hpend h
    simp only [Targets.dfs] at h
    by_cases hv1 : vis name = 1
    · rw [if_pos hv1] at h
      cases h
    rw [if_neg hv1] at h
    by_cases hv2 : vis name = 2
    · rw [if_pos hv2] at h
      cases h
    rw [if_neg hv2] at h
    cases hget : l.Get name with
    | none =>
      simp only [hget] at h
      exact Option.noConfusion h
    | some t =>
      simp only [hget] at h
      have hInv1 : Inv l r (fun m => if m = name then 1 else vis m) :=
        hInv.mark_gray name hv2
      have hpend1 : pend l (fun m => if m = name then 1 else vis m) < fuel := by
        have hlt := pend_mark_lt hget hv1 hv2
        omega
      cases hd : Targets.dfsDeps (l.dfs fuel) t.Dependencies r
          (fun m => if m = name then 1 else vis m) with
      | none => exact dfsDeps_term l fuel ih t.Dependencies r _ hInv1 hpend1 hd
      | some res =>
        rw [hd] at h
        cases res with
        | error e => cases h
        | ok p => cases h

theorem pend_start_lt (l : Targets) : pend l (fun _ => 0) < l.items.length + 1 :=
  Nat.lt_succ_of_le (List.countP_le_length _)

/-- The top-level `dfs` call of `ComputeTargetRunOrder` always returns a
value: the Go recursion terminates. -/
theorem dfs_top_some (l : Targets) (name : String) :
    ∃ res, l.dfs (l.items.length + 1) [] (fun _ => 0) name = some res := by
  cases hd : l.dfs (l.items.length + 1) [] (fun _ => 0) name with
  | none =>
    exact absurd hd (dfs_term l (l.items.length + 1) [] (fun _ => 0) name
      (Inv.start l) (pend_start_lt l))
  | some res => exact ⟨res, rfl⟩

/-! ### Characterisation of `dfs` errors -/

/-- An unknown-target error names a target that is absent from the
registry and reachable from the visited name. -/
theorem dfs_err_unknown (l : Targets) :
    ∀ fuel r vis name m,
      l.dfs fuel r vis name = some (Except.error (ResolveErr.unknownTarget m)) →
      l.Get m = none ∧ Reach l name m := by
  intro fuel
  induction fuel with
  | zero =>
    intro r vis name m h
    exact Option.noConfusion h
  | succ fuel ih =>
    intro r vis name m h
    simp only [Targets.dfs] at h
    by_cases hv1 : vis name = 1
    · rw [if_pos hv1] at h
      simp at h
    rw [if_neg hv1] at h
    by_cases hv2 : vis name = 2
    · rw [if_pos hv2] at h
      simp at h
    rw [if_neg hv2] at h
    cases hget : l.Get name with
    | none =>
      simp only [hget, Option.some.injEq, Except.error.injEq,
        ResolveErr.unknownTarget.injEq] at h
      subst h
      exact ⟨hget, Relation.ReflTransGen.refl⟩
    | some t =>
      simp only [hget] at h
      cases hd : Targets.dfsDeps (l.dfs fuel) t.Dependencies r
          (fun m => if m = name then 1 else vis m) with
      | none =>
        rw [hd] at h
        cases h
      | some res =>
        cases res with
        | error e =>
          rw [hd] at h
          simp only [Option.some.injEq, Except.error.injEq] at h
          subst h
          -- the error came from some dependency in the list
          have haux : ∀ ds r0 vis0,
              Targets.dfsDeps (l.dfs fuel) ds r0 vis0 =
                some (Except.error (ResolveErr.unknownTarget m)) →
              l.Get m = none ∧ ∃ d ∈ ds, Reach l d m := by
            intro ds
            induction ds with
            | nil =>
              intro r0 vis0 hh
              simp [Targets.dfsDeps] at hh
            | cons d rest ihds =>
              intro r0 vis0 hh
              cases hc : l.dfs fuel r0 vis0 d with
              | none => simp [Targets.dfsDeps, hc] at hh
              | some res2 =>
                cases res2 with
                | error e2 =>
                  simp only [Targets.dfsDeps, hc, Option.some.injEq,
                    Except.error.injEq] at hh
                  subst hh
                  obtain ⟨hnone, hreach⟩ := ih r0 vis0 d m hc
                  exact ⟨hnone, d, List.mem_cons_self _ _, hreach⟩
                | ok p =>
                  obtain ⟨r1, vis1⟩ := p
                  simp only [Targets.dfsDeps, hc] at hh
                  obtain ⟨hnone, d2, hd2, hreach⟩ := ihds r1 vis1 hh
                  exact ⟨hnone, d2, List.mem_cons_of_mem _ hd2, hreach⟩
          obtain ⟨hnone, d, hdmem, hreach⟩ := haux t.Dependencies r _ hd
          exact ⟨hnone, Relation.ReflTransGen.head ⟨t, hget, hdmem⟩ hreach⟩
        | ok p =>
          obtain ⟨rr, vv⟩ := p
          rw [hd] at h
          simp at h

/-- When no in-progress target is reachable from `name` and no target
reachable from `name` lies on a cycle, `dfs` cannot report a cycle. -/
theorem dfs_no_cycle (l : Targets) :
    ∀ fuel r vis name, Inv l r vis →
      (∀ g, vis g = 1 → ¬ Reach l name g) →
      (∀ m, Reach l name m → ¬ Reach1 l m m) →
      l.dfs fuel r vis name ≠ some (Except.error ResolveErr.cycle) := by
  intro fuel
  induction fuel with
  | zero =>
    intro r vis name _ _ _ h
    exact Option.noConfusion h
  | succ fuel ih =>
    intro r vis name hInv hgrayPre hacyc h
    simp only [Targets.dfs] at h
    by_cases hv1 : vis name = 1
    · exact hgrayPre name hv1 Relation.ReflTransGen.refl
    rw [if_neg hv1] at h
    by_cases hv2 : vis name = 2
    · rw [if_pos hv2] at h
      simp at h
    rw [if_neg hv2] at h
    cases hget : l.Get name with
    | none =>
      simp only [hget, Option.some.injEq, Except.error.injEq] at h
      exact ResolveErr.noConfusion h
    | some t =>
      simp only [hget] at h
      have hInv1 : Inv l r (fun m => if m = name then 1 else vis m) :=
        hInv.mark_gray name hv2
      -- preconditions for every dependency of `name`
      have hdep_pre : ∀ d ∈ t.Dependencies,
          (∀ g, (if g = name then 1 else vis g) = 1 → ¬ Reach l d g) ∧
          (∀ m, Reach l d m → ¬ Reach1 l m m) := by
        intro d hdmem
        have hedge : depRel l name d := ⟨t, hget, hdmem⟩
        constructor
        · intro g hg hreach
          by_cases hgname : g = name
          · subst hgname
            exact hacyc g Relation.ReflTransGen.refl
              (Relation.TransGen.head' hedge hreach)
          · rw [if_neg hgname] at hg
            exact hgrayPre g hg (Relation.ReflTransGen.head hedge hreach)
        · intro m hm
          exact hacyc m (Relation.ReflTransGen.head hedge hm)
      -- the dependency fold cannot produce a cycle error either
      have haux : ∀ ds r0 vis0, Inv l r0 vis0 →
          (∀ d ∈ ds, (∀ g, vis0 g = 1 → ¬ Reach l d g) ∧
            (∀ m, Reach l d m → ¬ Reach1 l m m)) →
          Targets.dfsDeps (l.dfs fuel) ds r0 vis0 ≠
            some (Except.error ResolveErr.cycle) := by
        intro ds
        induction ds with
        | nil =>
          intro r0 vis0 _ _ hh
          simp [Targets.dfsDeps] at hh
        | cons d rest ihds =>
          intro r0 vis0 hInv0 hpre hh
          cases hc : l.dfs fuel r0 vis0 d with
          | none => simp [Targets.dfsDeps, hc] at hh
          | some res2 =>
            cases res2 with
            | error e2 =>
              simp only [Targets.dfsDeps, hc, Option.some.injEq,
                Except.error.injEq] at hh
              subst hh
              exact ih r0 vis0 d hInv0 (hpre d (List.mem_cons_self _ _)).1
                (hpre d (List.mem_cons_self _ _)).2 hc
            | ok p =>
              obtain ⟨r1, vis1⟩ := p
              simp only [Targets.dfsDeps, hc] at hh
              obtain ⟨hInv2, -, -, hgray⟩ := dfs_ok_post l fuel r0 vis0 d r1 vis1 hInv0 hc
              refine ihds r1 vis1 hInv2 ?_ hh
              intro d2 hd2
              refine ⟨?_, (hpre d2 (List.mem_cons_of_mem _ hd2)).2⟩
              intro g hg
              exact (hpre d2 (List.mem_cons_of_mem _ hd2)).1 g ((hgray g).mp hg)
      cases hd : Targets.dfsDeps (l.dfs fuel) t.Dependencies r
          (fun m => if m = name then 1 else vis m) with
      | none =>
        rw [hd] at h
        cases h
      | some res =>
        cases res with
        | error e =>
          rw [hd] at h
          simp only [Option.some.injEq, Except.error.injEq] at h
          subst h
          exact haux t.Dependencies r _ hInv1 hdep_pre hd
        | ok p =>
          obtain ⟨rr, vv⟩ := p
          rw [hd] at h
          simp at h

/-! ### Unpacking `ComputeTargetRunOrder` -/

theorem ctro_ok_elim {l : Targets} {name : String} {r : List String}
    (h : l.ComputeTargetRunOrder name = Except.ok r) :
    ∃ vis, l.dfs (l.items.length + 1) [] (fun _ => 0) name =
      some (Except.ok (r, vis)) := by
  unfold Targets.ComputeTargetRunOrder at h
  cases hd : l.dfs (l.items.length + 1) [] (fun _ => 0) name with
  | none =>
    rw [hd] at h
    cases h
  | some res =>
    cases res with
    | error e =>
      rw [hd] at h
      cases h
    | ok p =>
      obtain ⟨r1, vis⟩ := p
      rw [hd] at h
      simp only [Except.ok.injEq] at h
      subst h
      exact ⟨vis, rfl⟩

theorem ctro_err_elim {l : Targets} {name : String} {e : ResolveErr}
    (h : l.ComputeTargetRunOrder name = Except.error e) :
    l.dfs (l.items.length + 1) [] (fun _ => 0) name = some (Except.error e) := by
  unfold Targets.ComputeTargetRunOrder at h
  cases hd : l.dfs (l.items.length + 1) [] (fun _ => 0) name with
  | none =>
    obtain ⟨res, hres⟩ := dfs_top_some l name
    rw [hd] at hres
    cases hres
  | some res =>
    cases res with
    | error e2 =>
      rw [hd] at h
      simp only [Except.error.injEq] at h
      subst h
      rfl
    | ok p =>
      obtain ⟨r1, vis⟩ := p
      rw [hd] at h
      cases h

/-! ### Executor loop lemmas -/

theorem actResult_elim {l : Targets} {n : String} {x : TargetRunFunc}
    (h : l.actResult n = some x) :
    ∃ t, l.Get n = some t ∧ t.run = some x := by
  unfold Targets.actResult at h
  cases hget : l.Get n with
  | none =>
    rw [hget] at h
    cases h
  | some t =>
    rw [hget] at h
    exact ⟨t, rfl, h⟩

/-- If every action before position `i` succeeds and the action at `i`
fails with `msg`, the loop invokes exactly the first `i + 1` targets and
stops with the action error naming position and target. -/
theorem runLoop_fail (l : Targets) :
    ∀ ts i0 total i (hi : i < ts.length) msg,
      (∀ j (hj : j < ts.length), j < i →
        l.actResult (ts.get ⟨j, hj⟩) = some (Except.ok ())) →
      l.actResult (ts.get ⟨i, hi⟩) = some (Except.error msg) →
      l.runLoop total i0 ts = some (ts.take (i + 1),
        Except.error (RunError.actionError (i0 + i) total (ts.get ⟨i, hi⟩) msg)) := by
  intro ts
  induction ts with
  | nil =>
    intro i0 total i hi
    exact absurd hi (by simp)
  | cons n rest ih =>
    intro i0 total i hi msg hok hfail
    cases i with
    | zero =>
      have hn : (n :: rest).get ⟨0, hi⟩ = n := rfl
      rw [hn] at hfail
      obtain ⟨t, hget, hrun⟩ := actResult_elim hfail
      simp only [Targets.runLoop, hget, hrun, hn]
      rfl
    | succ k =>
      have h0 : l.actResult n = some (Except.ok ()) := by
        have := hok 0 (by simp) (Nat.succ_pos k)
        simpa using this
      obtain ⟨t, hget, hrun⟩ := actResult_elim h0
      have hi2 : k < rest.length := by
        simpa using hi
      have hok2 : ∀ j (hj : j < rest.length), j < k →
          l.actResult (rest.get ⟨j, hj⟩) = some (Except.ok ()) := by
        intro j hj hjk
        have hj2 : j + 1 < (n :: rest).length := by simpa using hj
        have := hok (j + 1) hj2 (Nat.succ_lt_succ hjk)
        rwa [List.get_cons_succ] at this
      have hfail2 : l.actResult (rest.get ⟨k, hi2⟩) = some (Except.error msg) := by
        rw [← List.get_cons_succ (a := n) (h := hi)]
        exact hfail
      have hih := ih (i0 + 1) total k hi2 msg hok2 hfail2
      simp only [Targets.runLoop, hget, hrun, hih]
      rw [List.get_cons_succ]
      have harith : i0 + 1 + k = i0 + (k + 1) := by omega
      rw [harith, List.take_succ_cons]

/-- If every action in the plan succeeds, the loop invokes every target in
order and reports success. -/
theorem runLoop_ok (l : Targets) :
    ∀ ts i0 total,
      (∀ j (hj : j < ts.length), l.actResult (ts.get ⟨j, hj⟩) = some (Except.ok ())) →
      l.runLoop total i0 ts = some (ts, Except.ok ()) := by
  intro ts
  induction ts with
  | nil =>
    intro i0 total _
    rfl
  | cons n rest ih =>
    intro i0 total hok
    have h0 : l.actResult n = some (Except.ok ()) := by
      have := hok 0 (by simp)
      simpa using this
    obtain ⟨t, hget, hrun⟩ := actResult_elim h0
    have hok2 : ∀ j (hj : j < rest.length),
        l.actResult (rest.get ⟨j, hj⟩) = some (Except.ok ()) := by
      intro j hj
      have hj2 : j + 1 < (n :: rest).length := by simpa using hj
      have := hok (j + 1) hj2
      rwa [List.get_cons_succ] at this
    have hih := ih (i0 + 1) total hok2
    simp only [Targets.runLoop, hget, hrun, hih]

/-! ### Synthesised registry lemmas -/

theorem ne_of_ne_length (s t : String) (h : s.length ≠ t.length) : s ≠ t :=
  fun he => h (congrArg String.length he)

/-- A lookup that succeeds before a run of the per-architecture loop, at a
name different from both aggregator names, still succeeds (with the same
target) afterwards: the loop only prepends fresh names and touches the
dependency lists of the two aggregators. -/
theorem synthArchLoop_get_preserved (bA zA : ExecutableInfo → String → TargetRunFunc)
    (e : ExecutableInfo) (bn zn : String) :
    ∀ archs l lf, synthArchLoop bA zA e bn zn archs l = Except.ok lf →
      ∀ m u, m ≠ bn → m ≠ zn → l.Get m = some u → lf.Get m = some u := by
  intro archs
  induction archs with
  | nil =>
    intro l lf h m u _ _ hm
    simp only [synthArchLoop, Except.ok.injEq] at h
    subst h
    exact hm
  | cons arch rest ih =>
    intro l lf h m u hbn hzn hm
    cases hA : l.Add (bn ++ ":" ++ arch) [] (some (bA e arch)) with
    | error msg =>
      simp only [synthArchLoop, hA] at h
      exact Except.noConfusion h
    | ok p =>
      obtain ⟨l1, beat⟩ := p
      cases hB : (l1.AddDependency bn beat.Name).Add (zn ++ ":" ++ arch)
          [beat.Name] (some (zA e arch)) with
      | error msg =>
        simp only [synthArchLoop, hA, hB] at h
        exact Except.noConfusion h
      | ok q =>
        obtain ⟨l3, zeat⟩ := q
        simp only [synthArchLoop, hA, hB] at h
        have h1 : l1.Get m = some u := Targets.Get_mono_Add hA hm
        have h2 : (l1.AddDependency bn beat.Name).Get m = some u := by
          rw [Targets.Get_AddDependency_ne _ _ _ _ (Ne.symm hbn)]
          exact h1
        have h3 : l3.Get m = some u := Targets.Get_mono_Add hB h2
        have h4 : (l3.AddDependency zn zeat.Name).Get m = some u := by
          rw [Targets.Get_AddDependency_ne _ _ _ _ (Ne.symm hzn)]
          exact h3
        exact ih _ lf h m u hbn hzn h4

/-- Same preservation property for the per-executable loop. -/
theorem synthExecLoop_get_preserved (bA zA : ExecutableInfo → String → TargetRunFunc)
    (bn zn : String) :
    ∀ execs l lf, synthExecLoop bA zA bn zn execs l = Except.ok lf →
      ∀ m u, m ≠ bn → m ≠ zn → l.Get m = some u → lf.Get m = some u := by
  intro execs
  induction execs with
  | nil =>
    intro l lf h m u _ _ hm
    simp only [synthExecLoop, Except.ok.injEq] at h
    subst h
    exact hm
  | cons e rest ih =>
    intro l lf h m u hbn hzn hm
    cases hA : l.Add (bn ++ ":" ++ e.Name) [] none with
    | error msg =>
      simp only [synthExecLoop, hA] at h
      exact Except.noConfusion h
    | ok p =>
      obtain ⟨l1, bet⟩ := p
      cases hB : (l1.AddDependency bn bet.Name).Add (zn ++ ":" ++ e.Name) [] none with
      | error msg =>
        simp only [synthExecLoop, hA, hB] at h
        exact Except.noConfusion h
      | ok q =>
        obtain ⟨l3, zet⟩ := q
        cases hC : synthArchLoop bA zA e bet.Name zet.Name e.Archs
            (l3.AddDependency zn zet.Name) with
        | error msg =>
          simp only [synthExecLoop, hA, hB, hC] at h
          exact Except.noConfusion h
        | ok l4 =>
          simp only [synthExecLoop, hA, hB, hC] at h
          obtain ⟨hfreshA, hbetEq, -⟩ := Targets.Add_ok_elim hA
          have hbet_ne : m ≠ bn ++ ":" ++ e.Name := by
            intro he
            rw [← he, hm] at hfreshA
            cases hfreshA
          have h1 : l1.Get m = some u := Targets.Get_mono_Add hA hm
          have h2 : (l1.AddDependency bn bet.Name).Get m = some u := by
            rw [Targets.Get_AddDependency_ne _ _ _ _ (Ne.symm hbn)]
            exact h1
          obtain ⟨hfreshB, hzetEq, -⟩ := Targets.Add_ok_elim hB
          have hzet_ne : m ≠ zn ++ ":" ++ e.Name := by
            intro he
            rw [← he, h2] at hfreshB
            cases hfreshB
          have h3 : l3.Get m = some u := Targets.Get_mono_Add hB h2
          have h4 : (l3.AddDependency zn zet.Name).Get m = some u := by
            rw [Targets.Get_AddDependency_ne _ _ _ _ (Ne.symm hzn)]
            exact h3
          have h5 : l4.Get m = some u := by
            refine synthArchLoop_get_preserved bA zA e bet.Name zet.Name
              e.Archs _ l4 hC m u ?_ ?_ h4
            · rw [hbetEq]
              exact hbet_ne
            · rw [hzetEq]
              exact hzet_ne
          exact ih l4 lf h m u hbn hzn h5

/-- After a successful run of the per-architecture loop, every listed
architecture has its build leaf (no dependencies, build action) and its
zip leaf (depending exactly on the build leaf, zip action). -/
theorem synthArchLoop_leaf (bA zA : ExecutableInfo → String → TargetRunFunc)
    (e : ExecutableInfo) (bn zn : String)
    (hbz : ∀ a : String, bn ++ ":" ++ a ≠ zn)
    (hzb : ∀ a : String, zn ++ ":" ++ a ≠ bn) :
    ∀ archs l lf, synthArchLoop bA zA e bn zn archs l = Except.ok lf →
      ∀ a ∈ archs,
        (∃ tb, lf.Get (bn ++ ":" ++ a) = some tb ∧
          tb.Dependencies = [] ∧ tb.run = some (bA e a)) ∧
        (∃ tz, lf.Get (zn ++ ":" ++ a) = some tz ∧
          tz.Dependencies = [bn ++ ":" ++ a] ∧ tz.run = some (zA e a)) := by
  intro archs
  induction archs with
  | nil =>
    intro l lf h a ha
    cases ha
  | cons arch rest ih =>
    intro l lf h a ha
    cases hA : l.Add (bn ++ ":" ++ arch) [] (some (bA e arch)) with
    | error msg =>
      simp only [synthArchLoop, hA] at h
      exact Except.noConfusion h
    | ok p =>
      obtain ⟨l1, beat⟩ := p
      cases hB : (l1.AddDependency bn beat.Name).Add (zn ++ ":" ++ arch)
          [beat.Name] (some (zA e arch)) with
      | error msg =>
        simp only [synthArchLoop, hA, hB] at h
        exact Except.noConfusion h
      | ok q =>
        obtain ⟨l3, zeat⟩ := q
        simp only [synthArchLoop, hA, hB] at h
        obtain ⟨-, hbeatEq, -⟩ := Targets.Add_ok_elim hA
        obtain ⟨-, hzeatEq, -⟩ := Targets.Add_ok_elim hB
        rcases List.mem_cons.mp ha with rfl | hmem
        · -- the head architecture: established here, preserved by the rest
          have hgb1 : l1.Get (bn ++ ":" ++ a) = some beat := by
            rw [Targets.Get_Add_ok hA]
            simp
          have hgb2 : (l1.AddDependency bn beat.Name).Get (bn ++ ":" ++ a) =
              some beat := by
            rw [Targets.Get_AddDependency_ne _ _ _ _ (ne_append_colon bn a)]
            exact hgb1
          have hgb3 : l3.Get (bn ++ ":" ++ a) = some beat :=
            Targets.Get_mono_Add hB hgb2
          have hgb4 : (l3.AddDependency zn zeat.Name).Get (bn ++ ":" ++ a) =
              some beat := by
            rw [Targets.Get_AddDependency_ne _ _ _ _ (Ne.symm (hbz a))]
            exact hgb3
          have hgz3 : l3.Get (zn ++ ":" ++ a) = some zeat := by
            rw [Targets.Get_Add_ok hB]
            simp
          have hgz4 : (l3.AddDependency zn zeat.Name).Get (zn ++ ":" ++ a) =
              some zeat := by
            rw [Targets.Get_AddDependency_ne _ _ _ _ (ne_append_colon zn a)]
            exact hgz3
          have hb5 := synthArchLoop_get_preserved bA zA e bn zn rest _ lf h
            (bn ++ ":" ++ a) beat (append_colon_ne bn a) (hbz a) hgb4
          have hz5 := synthArchLoop_get_preserved bA zA e bn zn rest _ lf h
            (zn ++ ":" ++ a) zeat (hzb a) (append_colon_ne zn a) hgz4
          refine ⟨⟨beat, hb5, ?_, ?_⟩, ⟨zeat, hz5, ?_, ?_⟩⟩
          · rw [hbeatEq]
          · rw [hbeatEq]
          · rw [hzeatEq, hbeatEq]
          · rw [hzeatEq]
        · exact ih _ lf h a hmem

/-- After a successful run of the per-executable loop with the top-level
aggregator names `"build"` and `"zip"`, every executable and architecture
has its build and zip leaves wired as in `createDefaultTargets`. -/
theorem synthExecLoop_leaf (bA zA : ExecutableInfo → String → TargetRunFunc) :
    ∀ execs l lf, synthExecLoop bA zA "build" "zip" execs l = Except.ok lf →
      ∀ e ∈ execs, ∀ a ∈ e.Archs,
        (∃ tb, lf.Get ("build" ++ ":" ++ e.Name ++ ":" ++ a) = some tb ∧
          tb.Dependencies = [] ∧ tb.run = some (bA e a)) ∧
        (∃ tz, lf.Get ("zip" ++ ":" ++ e.Name ++ ":" ++ a) = some tz ∧
          tz.Dependencies = ["build" ++ ":" ++ e.Name ++ ":" ++ a] ∧
          tz.run = some (zA e a)) := by
  intro execs
  induction execs with
  | nil =>
    intro l lf h e he
    cases he
  | cons e0 rest ih =>
    intro l lf h e he a ha
    cases hA : l.Add ("build" ++ ":" ++ e0.Name) [] none with
    | error msg =>
      simp only [synthExecLoop, hA] at h
      exact Except.noConfusion h
    | ok p =>
      obtain ⟨l1, bet⟩ := p
      cases hB : (l1.AddDependency "build" bet.Name).Add ("zip" ++ ":" ++ e0.Name)
          [] none with
      | error msg =>
        simp only [synthExecLoop, hA, hB] at h
        exact Except.noConfusion h
      | ok q =>
        obtain ⟨l3, zet⟩ := q
        cases hC : synthArchLoop bA zA e0 bet.Name zet.Name e0.Archs
            (l3.AddDependency "zip" zet.Name) with
        | error msg =>
          simp only [synthExecLoop, hA, hB, hC] at h
          exact Except.noConfusion h
        | ok l4 =>
          simp only [synthExecLoop, hA, hB, hC] at h
          obtain ⟨-, hbetEq, -⟩ := Targets.Add_ok_elim hA
          obtain ⟨-, hzetEq, -⟩ := Targets.Add_ok_elim hB
          rcases List.mem_cons.mp he with rfl | hmem
          · -- leaves of the head executable, established by the arch loop
            have hbz : ∀ x : String,
                ("build" ++ ":" ++ e.Name) ++ ":" ++ x ≠ "zip" ++ ":" ++ e.Name := by
              intro x
              exact ne_of_head_ne _ _ 'b' 'z' rfl rfl (by decide)
            have hzb : ∀ x : String,
                ("zip" ++ ":" ++ e.Name) ++ ":" ++ x ≠ "build" ++ ":" ++ e.Name := by
              intro x
              exact ne_of_head_ne _ _ 'z' 'b' rfl rfl (by decide)
            have hbn2 : bet.Name = "build" ++ ":" ++ e.Name := by rw [hbetEq]
            have hzn2 : zet.Name = "zip" ++ ":" ++ e.Name := by rw [hzetEq]
            have hCn : synthArchLoop bA zA e ("build" ++ ":" ++ e.Name)
                ("zip" ++ ":" ++ e.Name) e.Archs
                (l3.AddDependency "zip" zet.Name) = Except.ok l4 := by
              rw [← hbn2, ← hzn2]
              exact hC
            obtain ⟨⟨tb, htb, htbd, htbr⟩, ⟨tz, htz, htzd, htzr⟩⟩ :=
              synthArchLoop_leaf bA zA e ("build" ++ ":" ++ e.Name)
                ("zip" ++ ":" ++ e.Name) hbz hzb e.Archs _ l4 hCn a ha
            -- preserve the facts through the remaining executables
            have hbne1 : ("build" ++ ":" ++ e.Name) ++ ":" ++ a ≠ "build" := by
              refine ne_of_ne_length _ _ ?_
              rw [String.length_append, String.length_append, String.length_append,
                String.length_append]
              have h5 : ("build" : String).length = 5 := rfl
              have h1 : (":" : String).length = 1 := rfl
              rw [h5, h1]
              omega
            have hbne2 : ("build" ++ ":" ++ e.Name) ++ ":" ++ a ≠ "zip" :=
              ne_of_head_ne _ _ 'b' 'z' rfl rfl (by decide)
            have hzne1 : ("zip" ++ ":" ++ e.Name) ++ ":" ++ a ≠ "build" :=
              ne_of_head_ne _ _ 'z' 'b' rfl rfl (by decide)
            have hzne2 : ("zip" ++ ":" ++ e.Name) ++ ":" ++ a ≠ "zip" := by
              refine ne_of_ne_length _ _ ?_
              rw [String.length_append, String.length_append, String.length_append,
                String.length_append]
              have h3 : ("zip" : String).length = 3 := rfl
              have h1 : (":" : String).length = 1 := rfl
              rw [h3, h1]
              omega
            refine ⟨⟨tb, ?_, htbd, htbr⟩, ⟨tz, ?_, htzd, htzr⟩⟩
            · exact synthExecLoop_get_preserved bA zA "build" "zip" rest l4 lf h
                _ tb hbne1 hbne2 htb
            · exact synthExecLoop_get_preserved bA zA "build" "zip" rest l4 lf h
                _ tz hzne1 hzne2 htz
          · exact ih l4 lf h e hmem a ha

theorem mem_of_Get_some {l : Targets} {n : String} {t : Target}
    (h : l.Get n = some t) : (n, t) ∈ l.items := by
  unfold Targets.Get at h
  cases hf : l.items.find? (fun p => p.1 == n) with
  | none =>
    rw [hf] at h
    cases h
  | some q =>
    rw [hf] at h
    obtain rfl : q.2 = t := Option.some.inj h
    have hpq := List.find?_some hf
    have hq1 : q.1 = n := eq_of_beq hpq
    have hqmem := List.mem_of_find?_eq_some hf
    rw [← hq1]
    simpa using hqmem

/-- Resolving a target `z` whose only dependency is an action-bearing leaf
`bl` yields exactly `[bl, z]`. -/
theorem ctro_pair (l : Targets) (z bl : String) (tz tb : Target)
    (hz : l.Get z = some tz) (hzd : tz.Dependencies = [bl])
    (hza : tz.run.isSome = true)
    (hb : l.Get bl = some tb) (hbd : tb.Dependencies = [])
    (hba : tb.run.isSome = true)
    (hne : z ≠ bl) :
    l.ComputeTargetRunOrder z = Except.ok [bl, z] := by
  have hmz := mem_of_Get_some hz
  have hmb := mem_of_Get_some hb
  have hpairne : (z, tz) ≠ (bl, tb) := by
    intro he
    exact hne (congrArg Prod.fst he)
  have hlen : 2 ≤ l.items.length := two_le_length_of_mem hmz hmb hpairne
  obtain ⟨k, hk⟩ : ∃ k, l.items.length + 1 = k + 1 + 1 :=
    ⟨l.items.length - 1, by omega⟩
  unfold Targets.ComputeTargetRunOrder
  rw [hk]
  simp [Targets.dfs, Targets.dfsDeps, hz, hb, hzd, hbd, hza, hba, hne, hne.symm]

/-- `createDefaultTargets` factored through the concrete base registry:
the five base registrations always succeed from the empty registry. -/
theorem createDefaultTargets_eq (execs : List ExecutableInfo)
    (g t c : TargetRunFunc) (bA zA : ExecutableInfo → String → TargetRunFunc) :
    Builder.createDefaultTargets execs g t c bA zA =
      match synthExecLoop bA zA "build" "zip" execs (initReg g t c) with
      | Except.error msg => Except.error msg
      | Except.ok l =>
        match l.Add "all" ["build", "test", "zip"] none with
        | Except.error msg => Except.error msg
        | Except.ok (l2, _) => Except.ok l2 := rfl

/-! ### Small reachability helpers for concrete registries -/

theorem reach_no_deps {l : Targets} {n : String}
    (h : ∀ t, l.Get n = some t → t.Dependencies = []) :
    ∀ m, Reach l n m → m = n := by
  intro m hr
  induction hr with
  | refl => rfl
  | tail _ hbc ih =>
    subst ih
    obtain ⟨t, hget, hmem⟩ := hbc
    rw [h t hget] at hmem
    cases hmem

theorem reach1_no_deps {l : Targets} {n : String}
    (h : ∀ t, l.Get n = some t → t.Dependencies = []) : ¬ Reach1 l n n := by
  intro hr
  obtain ⟨b, hb, -⟩ := Relation.TransGen.head'_iff.mp hr
  obtain ⟨t, hget, hmem⟩ := hb
  rw [h t hget] at hmem
  cases hmem

theorem reach_self_loop {l : Targets} {n : String}
    (h : ∀ t, l.Get n = some t → t.Dependencies = [n]) :
    ∀ m, Reach l n m → m = n := by
  intro m hr
  induction hr with
  | refl => rfl
  | tail _ hbc ih =>
    subst ih
    obtain ⟨t, hget, hmem⟩ := hbc
    rw [h t hget] at hmem
    exact List.mem_singleton.mp hmem

theorem depRel_single {k : String} {t : Target} {x y : String}
    (h : depRel ⟨[(k, t)]⟩ x y) : x = k ∧ y ∈ t.Dependencies := by
  obtain ⟨u, hget, hmem⟩ := h
  rw [Targets.Get_cons] at hget
  by_cases hk : k = x
  · rw [if_pos hk] at hget
    obtain rfl : t = u := Option.some.inj hget
    exact ⟨hk.symm, hmem⟩
  · rw [if_neg hk] at hget
    simp [Targets.Get] at hget

/-! ### Claim theorems -/

/-- C1 (amended): for a registry whose dependency relation is acyclic over
the names reachable from the root, and in which the root and every
transitively referenced dependency name are present,
`ComputeTargetRunOrder` succeeds and every target in the output appears
strictly after each of its action-bearing transitive dependencies. -/
theorem claim_C1_topological (l : Targets) (root : String)
    (closed : ∀ m, Reach l root m → (l.Get m).isSome = true)
    (acyc : ∀ m, Reach l root m → ¬ Reach1 l m m) :
    ∃ r, l.ComputeTargetRunOrder root = Except.ok r ∧
      ∀ n ∈ r, ∀ m, Reach1 l n m → hasAction l m →
        m ∈ r ∧ r.indexOf m < r.indexOf n := by
  obtain ⟨res, hres⟩ := dfs_top_some l root
  cases res with
  | error e =>
    cases e with
    | cycle =>
      exact absurd hres (dfs_no_cycle l _ [] _ root (Inv.start l)
        (fun g hg => absurd hg (by decide)) acyc)
    | unknownTarget m =>
      obtain ⟨hnone, hreach⟩ := dfs_err_unknown l _ [] _ root m hres
      have hsome := closed m hreach
      rw [hnone] at hsome
      cases hsome
  | ok p =>
    obtain ⟨r, vis⟩ := p
    refine ⟨r, ?_, ?_⟩
    · unfold Targets.ComputeTargetRunOrder
      rw [hres]
    · obtain ⟨hInv, -, -, -⟩ := dfs_ok_post l _ [] _ root r vis (Inv.start l) hres
      exact hInv.ordered

/-- C1 witness: the hypotheses and the conclusion hold on a concrete
single-target registry. -/
theorem claim_C1_witness :
    (∀ m, Reach soloReg "solo" m → (soloReg.Get m).isSome = true) ∧
    (∃ r, soloReg.ComputeTargetRunOrder "solo" = Except.ok r ∧
      ∀ n ∈ r, ∀ m, Reach1 soloReg n m → hasAction soloReg m →
        m ∈ r ∧ r.indexOf m < r.indexOf n) := by
  have hdeps : ∀ t, soloReg.Get "solo" = some t → t.Dependencies = [] := by
    intro t hget
    obtain rfl := Option.some.inj
      ((show soloReg.Get "solo" = some ⟨"solo", [], some actOk⟩ from rfl).symm.trans hget)
    rfl
  have hclosed : ∀ m, Reach soloReg "solo" m → (soloReg.Get m).isSome = true := by
    intro m hm
    rw [reach_no_deps hdeps m hm]
    rfl
  have hacyc : ∀ m, Reach soloReg "solo" m → ¬ Reach1 soloReg m m := by
    intro m hm
    rw [reach_no_deps hdeps m hm]
    exact reach1_no_deps hdeps
  exact ⟨hclosed, claim_C1_topological soloReg "solo" hclosed hacyc⟩

/-- C1 counterexample: a registry that is acyclic over everything
reachable from a present root, yet whose resolution fails with an
unknown-target error because a referenced dependency is absent — so
acyclicity plus root presence alone do not make
`ComputeTargetRunOrder` succeed. -/
theorem claim_C1_counterexample :
    (danglingReg.Get "a").isSome = true ∧
    (∀ m, Reach danglingReg "a" m → ¬ Reach1 danglingReg m m) ∧
    danglingReg.ComputeTargetRunOrder "a" =
      Except.error (ResolveErr.unknownTarget "b") := by
  have hedge : ∀ {x y : String}, depRel danglingReg x y → x = "a" ∧ y = "b" := by
    intro x y hxy
    obtain ⟨hx, hy⟩ :=
      depRel_single (k := "a") (t := ⟨"a", ["b"], some actOk⟩) hxy
    refine ⟨hx, ?_⟩
    simpa using hy
  refine ⟨rfl, ?_, by decide⟩
  intro m _ hcyc
  obtain ⟨b0, hb0, hrest⟩ := Relation.TransGen.head'_iff.mp hcyc
  obtain ⟨hm_a, hb0_b⟩ := hedge hb0
  subst hm_a
  subst hb0_b
  rcases Relation.ReflTransGen.cases_head hrest with hba | ⟨c, hc, -⟩
  · exact absurd hba (by decide)
  · exact absurd (hedge hc).1 (by decide)

/-- C4 (amended): the fueled `dfs` underlying `ComputeTargetRunOrder`
always returns a value (termination), and when every name reachable from
the root is registered, a reachable self-dependency makes resolution fail
with the cycle error. -/
theorem claim_C4_termination_cycle (l : Targets) (root : String) :
    (∃ res, l.dfs (l.items.length + 1) [] (fun _ => 0) root = some res) ∧
    ((∀ m, Reach l root m → (l.Get m).isSome = true) →
      (∃ m, Reach l root m ∧ Reach1 l m m) →
      l.ComputeTargetRunOrder root = Except.error ResolveErr.cycle) := by
  refine ⟨dfs_top_some l root, ?_⟩
  intro closed hcyc
  obtain ⟨m, hm, hmcyc⟩ := hcyc
  obtain ⟨res, hres⟩ := dfs_top_some l root
  cases res with
  | ok p =>
    obtain ⟨r, vis⟩ := p
    obtain ⟨hInv, hdone, -, -⟩ := dfs_ok_post l _ [] _ root r vis (Inv.start l) hres
    have hmdone : vis m = 2 := hInv.reach_done hdone hm
    exact absurd hmcyc (hInv.done_acyclic m hmdone)
  | error e =>
    cases e with
    | cycle =>
      unfold Targets.ComputeTargetRunOrder
      rw [hres]
    | unknownTarget u =>
      obtain ⟨hnone, hreach⟩ := dfs_err_unknown l _ [] _ root u hres
      have hsome := closed u hreach
      rw [hnone] at hsome
      cases hsome

/-- C4 witness: on a self-depending registry whose names are all present,
resolution terminates with the cycle error. -/
theorem claim_C4_witness :
    ((∀ m, Reach selfLoopReg "a" m → (selfLoopReg.Get m).isSome = true) ∧
      (∃ m, Reach selfLoopReg "a" m ∧ Reach1 selfLoopReg m m)) ∧
    selfLoopReg.ComputeTargetRunOrder "a" = Except.error ResolveErr.cycle := by
  have hdeps : ∀ t, selfLoopReg.Get "a" = some t → t.Dependencies = ["a"] := by
    intro t hget
    obtain rfl := Option.some.inj
      ((show selfLoopReg.Get "a" = some ⟨"a", ["a"], some actOk⟩ from rfl).symm.trans hget)
    rfl
  have hclosed : ∀ m, Reach selfLoopReg "a" m → (selfLoopReg.Get m).isSome = true := by
    intro m hm
    rw [reach_self_loop hdeps m hm]
    rfl
  have hcyc : Reach1 selfLoopReg "a" "a" :=
    Relation.TransGen.single ⟨⟨"a", ["a"], some actOk⟩, rfl, by decide⟩
  exact ⟨⟨hclosed, "a", Relation.ReflTransGen.refl, hcyc⟩,
    (claim_C4_termination_cycle selfLoopReg "a").2 hclosed
      ⟨"a", Relation.ReflTransGen.refl, hcyc⟩⟩

/-- C4 counterexample: a registry with a reachable self-dependency where
resolution nevertheless reports an unknown target (an absent sibling
dependency is reached first), not a cycle — so a reachable
self-dependency does not by itself force the cycle error. -/
theorem claim_C4_counterexample :
    (∃ m, Reach ghostReg "r" m ∧ Reach1 ghostReg m m) ∧
    ghostReg.ComputeTargetRunOrder "r" =
      Except.error (ResolveErr.unknownTarget "ghost") ∧
    ghostReg.ComputeTargetRunOrder "r" ≠ Except.error ResolveErr.cycle := by
  refine ⟨⟨"a", ?_, ?_⟩, by decide, by decide⟩
  · exact Relation.ReflTransGen.single
      ⟨⟨"r", ["ghost", "a"], some actOk⟩, rfl, by decide⟩
  · exact Relation.TransGen.single ⟨⟨"a", ["a"], some actOk⟩, rfl, by decide⟩

/-- C5: when resolution succeeds, a target without an action never appears
in the output (even as the root), while every action-bearing target
reachable from the root is scheduled. -/
theorem claim_C5_aggregator (l : Targets) (root : String) (r : List String)
    (h : l.ComputeTargetRunOrder root = Except.ok r) :
    (∀ n, ¬ hasAction l n → n ∉ r) ∧
    (∀ m, Reach l root m → hasAction l m → m ∈ r) := by
  obtain ⟨vis, hdfs⟩ := ctro_ok_elim h
  obtain ⟨hInv, hdone, -, -⟩ := dfs_ok_post l _ [] _ root r vis (Inv.start l) hdfs
  constructor
  · intro n hna hmem
    exact hna (hInv.mem_spec n hmem).2
  · intro m hm ha
    have hmdone : vis m = 2 := hInv.reach_done hdone hm
    obtain ⟨t, hget, hrun⟩ := ha
    exact hInv.done_action_mem m t hmdone hget hrun

/-- C5 witness: on a concrete registry whose root is a pure aggregator
over one action-bearing leaf, the aggregator is absent from its own run
order. -/
theorem claim_C5_witness : "agg" ∉ (["x"] : List String) := by
  have h := claim_C5_aggregator aggReg "agg" ["x"] (by decide)
  refine h.1 "agg" ?_
  rintro ⟨t, hget, hrun⟩
  obtain rfl := Option.some.inj
    ((show aggReg.Get "agg" = some ⟨"agg", ["x"], none⟩ from rfl).symm.trans hget)
  cases hrun

/-- C6: on the diamond registry (D depends on B and C, both depend on A,
all action-bearing), resolving D lists A exactly once and before both B
and C. -/
theorem claim_C6_diamond :
    diamondReg.ComputeTargetRunOrder "D" = Except.ok ["A", "B", "C", "D"] ∧
    (["A", "B", "C", "D"] : List String).count "A" = 1 ∧
    (["A", "B", "C", "D"] : List String).indexOf "A" <
      (["A", "B", "C", "D"] : List String).indexOf "B" ∧
    (["A", "B", "C", "D"] : List String).indexOf "A" <
      (["A", "B", "C", "D"] : List String).indexOf "C" := by
  decide

/-- C7: an absent root yields the unknown-target error naming the root;
any unknown-target error names an absent name reachable from the root;
under acyclicity an absent reachable name forces an unknown-target error
naming such a name; and a successful resolution implies every reachable
name is present (no plan is produced otherwise). -/
theorem claim_C7_unknown (l : Targets) (root : String) :
    (l.Get root = none →
      l.ComputeTargetRunOrder root =
        Except.error (ResolveErr.unknownTarget root)) ∧
    (∀ m, l.ComputeTargetRunOrder root =
        Except.error (ResolveErr.unknownTarget m) →
      l.Get m = none ∧ Reach l root m) ∧
    ((∀ m, Reach l root m → ¬ Reach1 l m m) →
      (∃ m, Reach l root m ∧ l.Get m = none) →
      ∃ m, Reach l root m ∧ l.Get m = none ∧
        l.ComputeTargetRunOrder root =
          Except.error (ResolveErr.unknownTarget m)) ∧
    (∀ r, l.ComputeTargetRunOrder root = Except.ok r →
      ∀ m, Reach l root m → (l.Get m).isSome = true) := by
  refine ⟨?_, ?_, ?_, ?_⟩
  · intro hnone
    unfold Targets.ComputeTargetRunOrder
    simp [Targets.dfs, hnone]
  · intro m h
    exact dfs_err_unknown l _ [] _ root m (ctro_err_elim h)
  · intro acyc habs
    obtain ⟨m0, hm0, hnone0⟩ := habs
    obtain ⟨res, hres⟩ := dfs_top_some l root
    cases res with
    | ok p =>
      obtain ⟨r, vis⟩ := p
      obtain ⟨hInv, hdone, -, -⟩ := dfs_ok_post l _ [] _ root r vis (Inv.start l) hres
      have hm0done : vis m0 = 2 := hInv.reach_done hdone hm0
      obtain ⟨t, hget, -⟩ := hInv.done_present m0 hm0done
      rw [hnone0] at hget
      cases hget
    | error e =>
      cases e with
      | cycle =>
        exact absurd hres (dfs_no_cycle l _ [] _ root (Inv.start l)
          (fun g hg => absurd hg (by decide)) acyc)
      | unknownTarget u =>
        obtain ⟨hnone, hreach⟩ := dfs_err_unknown l _ [] _ root u hres
        refine ⟨u, hreach, hnone, ?_⟩
        unfold Targets.ComputeTargetRunOrder
        rw [hres]
  · intro r h m hm
    obtain ⟨vis, hdfs⟩ := ctro_ok_elim h
    obtain ⟨hInv, hdone, -, -⟩ := dfs_ok_post l _ [] _ root r vis (Inv.start l) hdfs
    have hmdone : vis m = 2 := hInv.reach_done hdone hm
    obtain ⟨t, hget, -⟩ := hInv.done_present m hmdone
    rw [hget]
    rfl

/-- C7 witness: resolving a missing root on the empty registry yields the
unknown-target error naming it. -/
theorem claim_C7_witness :
    Targets.ComputeTargetRunOrder ⟨[]⟩ "missing" =
      Except.error (ResolveErr.unknownTarget "missing") :=
  (claim_C7_unknown ⟨[]⟩ "missing").1 rfl

/-- C8: registering a name that already exists fails (the Go code panics
with "Target already exists") regardless of the new dependency list or
action; no updated registry is produced, so the existing one is
unchanged. -/
theorem claim_C8_duplicate (l : Targets) (name : String)
    (h : (l.Get name).isSome = true) (deps : List String)
    (code : Option TargetRunFunc) :
    l.Add name deps code = Except.error ("Target already exists: " ++ name) := by
  unfold Targets.Add
  cases hg : l.Get name with
  | none =>
    rw [hg] at h
    cases h
  | some t => rfl

/-- C8 witness: re-registering the existing target of `soloReg` with a
different dependency list fails. -/
theorem claim_C8_witness :
    soloReg.Add "solo" ["x"] none =
      Except.error ("Target already exists: " ++ "solo") :=
  claim_C8_duplicate soloReg "solo" rfl ["x"] none

/-- C10: when the detected Go version is below the declared minimum,
`RunTarget` returns the unsupported-go-version error for every registry
and every requested name — before any run order is computed and with no
action invoked (the invoked-trace is empty). -/
theorem claim_C10_version_gate (b : Builder) (name : String)
    (h : b.GO_VERSION.LessThan b.Code.MinGoVersion = true) :
    b.RunTarget name = some ([], Except.error
      (RunError.unsupportedGoVersion b.GO_VERSION b.Code.MinGoVersion)) := by
  unfold Builder.RunTarget
  rw [if_pos h]

/-- C10 witness: a builder with go 1.16.5 against a 1.17 minimum. -/
theorem claim_C10_witness :
    oldGoBuilder.RunTarget "all3" = some ([], Except.error
      (RunError.unsupportedGoVersion ⟨1, 16, 5⟩ ⟨1, 17, 0⟩)) :=
  claim_C10_version_gate oldGoBuilder "all3" (by decide)

/-- C3: for a computed run order, if the action at position `i` fails
while all earlier ones succeed, `RunTarget` invokes exactly the first
`i + 1` targets and returns the failure naming the target and its
position; if every action succeeds, it runs all targets and reports
success. -/
theorem claim_C3_executor (b : Builder) (name : String) (ts : List String)
    (hver : b.GO_VERSION.LessThan b.Code.MinGoVersion = false)
    (hord : b.Targets.ComputeTargetRunOrder name = Except.ok ts) :
    (∀ i (hi : i < ts.length) (msg : String),
      (∀ j (hj : j < ts.length), j < i →
        b.Targets.actResult (ts.get ⟨j, hj⟩) = some (Except.ok ())) →
      b.Targets.actResult (ts.get ⟨i, hi⟩) = some (Except.error msg) →
      b.RunTarget name = some (ts.take (i + 1),
        Except.error (RunError.actionError i ts.length (ts.get ⟨i, hi⟩) msg))) ∧
    ((∀ j (hj : j < ts.length),
        b.Targets.actResult (ts.get ⟨j, hj⟩) = some (Except.ok ())) →
      b.RunTarget name = some (ts, Except.ok ())) := by
  have hcond : ¬ (b.GO_VERSION.LessThan b.Code.MinGoVersion = true) := by
    rw [hver]
    decide
  constructor
  · intro i hi msg hok hfail
    unfold Builder.RunTarget
    rw [if_neg hcond]
    simp only [hord]
    have hrun := runLoop_fail b.Targets ts 0 ts.length i hi msg hok hfail
    rw [Nat.zero_add] at hrun
    exact hrun
  · intro hok
    unfold Builder.RunTarget
    rw [if_neg hcond]
    simp only [hord]
    exact runLoop_ok b.Targets ts 0 ts.length hok

/-- C3 witness: the three-step scenario — the second step fails with
"boom", the run stops after invoking the first two targets and the error
names step 1 (0-based) of 3 and target s2. -/
theorem claim_C3_witness :
    threeStepBuilder.RunTarget "all3" = some (["s1", "s2"],
      Except.error (RunError.actionError 1 3 "s2" "boom")) := by
  have h := (claim_C3_executor threeStepBuilder "all3" ["s1", "s2", "s3"]
    (by decide) (by decide)).1 1 (by decide) "boom" (by decide) (by decide)
  exact h

/-- C2 (amended): for executables A and B over linux/amd64 and
windows/amd64, the synthesized registry contains the four build leaves,
per-executable aggregators build:A and build:B depending on their two
leaves, and build depending on build:A and build:B; resolving "build"
returns exactly the four leaves in traversal order, and none of the
aggregators (build:A, build:B, build — all action-less) appears in the
output. -/
theorem claim_C2_grid :
    Builder.createDefaultTargets execsAB actOk actOk actOk
      (fun _ _ => actOk) (fun _ _ => actOk) = Except.ok gridReg ∧
    (gridReg.Get "build:A:linux/amd64").isSome = true ∧
    (gridReg.Get "build:A:windows/amd64").isSome = true ∧
    (gridReg.Get "build:B:linux/amd64").isSome = true ∧
    (gridReg.Get "build:B:windows/amd64").isSome = true ∧
    (gridReg.Get "build:A").map Target.Dependencies =
      some ["build:A:linux/amd64", "build:A:windows/amd64"] ∧
    (gridReg.Get "build:B").map Target.Dependencies =
      some ["build:B:linux/amd64", "build:B:windows/amd64"] ∧
    (gridReg.Get "build").map Target.Dependencies = some ["build:A", "build:B"] ∧
    gridReg.ComputeTargetRunOrder "build" = Except.ok
      ["build:A:linux/amd64", "build:A:windows/amd64",
        "build:B:linux/amd64", "build:B:windows/amd64"] ∧
    "build:A" ∉ (["build:A:linux/amd64", "build:A:windows/amd64",
      "build:B:linux/amd64", "build:B:windows/amd64"] : List String) ∧
    "build:B" ∉ (["build:A:linux/amd64", "build:A:windows/amd64",
      "build:B:linux/amd64", "build:B:windows/amd64"] : List String) ∧
    "build" ∉ (["build:A:linux/amd64", "build:A:windows/amd64",
      "build:B:linux/amd64", "build:B:windows/amd64"] : List String) := by
  decide

/-- C2 counterexample: resolving "build" on the synthesized registry does
not contain the per-executable aggregators at all, so the four leaves
cannot appear "before both aggregators" in the output — the claim's
description of the output is false on the code. -/
theorem claim_C2_counterexample :
    gridReg.ComputeTargetRunOrder "build" = Except.ok
      ["build:A:linux/amd64", "build:A:windows/amd64",
        "build:B:linux/amd64", "build:B:windows/amd64"] ∧
    ¬ ("build:A" ∈ (["build:A:linux/amd64", "build:A:windows/amd64",
        "build:B:linux/amd64", "build:B:windows/amd64"] : List String) ∧
      "build:B" ∈ (["build:A:linux/amd64", "build:A:windows/amd64",
        "build:B:linux/amd64", "build:B:windows/amd64"] : List String)) := by
  decide

/-- C9: in every successfully synthesized registry, for every executable
and every architecture, the packaging (zip) leaf declares the build leaf
of the same pair as its dependency, and resolving the packaging leaf
places the build leaf strictly before it (the output is exactly
[build leaf, zip leaf]). -/
theorem claim_C9_package_wiring (execs : List ExecutableInfo)
    (g t c : TargetRunFunc) (bA zA : ExecutableInfo → String → TargetRunFunc)
    (lf : Targets)
    (h : Builder.createDefaultTargets execs g t c bA zA = Except.ok lf) :
    ∀ e ∈ execs, ∀ a ∈ e.Archs,
      (∃ tz, lf.Get ("zip" ++ ":" ++ e.Name ++ ":" ++ a) = some tz ∧
        tz.Dependencies = ["build" ++ ":" ++ e.Name ++ ":" ++ a]) ∧
      lf.ComputeTargetRunOrder ("zip" ++ ":" ++ e.Name ++ ":" ++ a) =
        Except.ok ["build" ++ ":" ++ e.Name ++ ":" ++ a,
          "zip" ++ ":" ++ e.Name ++ ":" ++ a] := by
  rw [createDefaultTargets_eq] at h
  cases hs : synthExecLoop bA zA "build" "zip" execs (initReg g t c) with
  | error msg =>
    rw [hs] at h
    cases h
  | ok lmid =>
    simp only [hs] at h
    cases hall : lmid.Add "all" ["build", "test", "zip"] none with
    | error msg =>
      simp only [hall] at h
      exact Except.noConfusion h
    | ok p =>
      obtain ⟨l2, tall⟩ := p
      simp only [hall, Except.ok.injEq] at h
      subst h
      intro e he a ha
      obtain ⟨⟨tb, htb, htbd, htbr⟩, ⟨tz, htz, htzd, htzr⟩⟩ :=
        synthExecLoop_leaf bA zA execs _ lmid hs e he a ha
      have htb2 : l2.Get ("build" ++ ":" ++ e.Name ++ ":" ++ a) = some tb :=
        Targets.Get_mono_Add hall htb
      have htz2 : l2.Get ("zip" ++ ":" ++ e.Name ++ ":" ++ a) = some tz :=
        Targets.Get_mono_Add hall htz
      have hne : ("zip" ++ ":" ++ e.Name ++ ":" ++ a : String) ≠
          "build" ++ ":" ++ e.Name ++ ":" ++ a :=
        ne_of_head_ne _ _ 'z' 'b' rfl rfl (by decide)
      refine ⟨⟨tz, htz2, htzd⟩, ?_⟩
      exact ctro_pair l2 _ _ tz tb htz2 htzd (by rw [htzr]; rfl)
        htb2 htbd (by rw [htbr]; rfl) hne

/-- C9 witness: for the concrete synthesized registry of executables A and
B, the zip leaf of (A, linux/amd64) depends on the matching build leaf
and resolves to [build leaf, zip leaf]. -/
theorem claim_C9_witness :
    (∃ tz, gridReg.Get ("zip" ++ ":" ++ "A" ++ ":" ++ "linux/amd64") = some tz ∧
      tz.Dependencies = ["build" ++ ":" ++ "A" ++ ":" ++ "linux/amd64"]) ∧
    gridReg.ComputeTargetRunOrder ("zip" ++ ":" ++ "A" ++ ":" ++ "linux/amd64") =
      Except.ok ["build" ++ ":" ++ "A" ++ ":" ++ "linux/amd64",
        "zip" ++ ":" ++ "A" ++ ":" ++ "linux/amd64"] :=
  claim_C9_package_wiring execsAB actOk actOk actOk (fun _ _ => actOk)
    (fun _ _ => actOk) gridReg (by decide)
    ⟨"A", ["linux/amd64", "windows/amd64"]⟩ (by decide) "linux/amd64" (by decide)

end Build
